import Mathlib

/-!
# MQTT v5 property encoders (`include/mqtt/property.hpp`)

A shallow embedding of the three encoders of `mqtt::v5::property`:
`detail::n_bytes_property<N>`, `detail::variable_length_property` and
`user_property`, followed by theorems about their byte-level output.

Conventions of the embedding.

* A `char` object is represented by its byte, a natural number below 256.
* A `std::size_t` value is a natural number; the encoder only masks and shifts
  right, so no operation on it can wrap.
* A `boost::container::static_vector<char, N>` is the list of its bytes; the
  capacity `N` is enforced by the operations that grow it, which raise
  `bad_alloc` instead of growing past `N`.
* An `as::const_buffer` is the list of the bytes of the region it refers to.
* A constructor that can throw returns `Except Thrown _`, where the error value
  records the exception together with the contents `buf_` had when it was thrown.
* `fill(b, e)` is a function of the bytes of the destination `[b, e)`; a failed
  `BOOST_ASSERT` and a write outside the destination both give `none`.
* `user_property::size()` adds lengths of regions that lie in memory; the sum is
  taken in the naturals.
-/

namespace mqtt.v5.property

/-- The exceptions that can leave the constructors of this header. -/
inductive Exception where
  | variable_length_error
  | bad_alloc
  deriving DecidableEq, Repr

/-- An exception in flight, with the contents of the member `buf_` at the throw. -/
structure Thrown where
  exc : Exception
  buf : List Nat
  deriving DecidableEq, Repr

/-- Width of `std::size_t` in bits (LP64). -/
def SIZE_WIDTH : Nat := 64

/-- Conversion of an integer value to `char`: the low eight bits are kept. -/
def to_char (x : Nat) : Nat := x % 256

/-- Conversion of a `char` (given by its byte) to `std::size_t`. Where `char` is
signed, a byte of 128 or more is a negative value and wraps modulo `2 ^ SIZE_WIDTH`. -/
def char_to_size_t (char_signed : Bool) (c : Nat) : Nat :=
  if char_signed && decide (128 ≤ c) then 2 ^ SIZE_WIDTH - 256 + c else c

namespace static_vector

/-- The constructor `explicit static_vector(size_type count)` of Boost.Container:
`count` value-initialised elements (zero bytes for `char`), `bad_alloc` when
`count` exceeds the capacity `N`. -/
def count_ctor (N count : Nat) : Except Exception (List Nat) :=
  if count > N then .error .bad_alloc else .ok (List.replicate count 0)

/-- The member `emplace_back` on a vector of capacity `N`: appends one element,
`bad_alloc` when the vector is full. -/
def emplace_back (N : Nat) (buf : List Nat) (x : Nat) : Except Exception (List Nat) :=
  if buf.length < N then .ok (buf ++ [x]) else .error .bad_alloc

end static_vector

/-- An output iterator `b` into the destination range `[b, e)` handed to `fill`:
the bytes of the range and the offset the iterator stands at. -/
structure OutIt where
  mem : List Nat
  pos : Nat
  deriving DecidableEq, Repr

/-- The statement `*b++ = x`. Writing outside the range has no defined result. -/
def OutIt.put (b : OutIt) (x : Nat) : Option OutIt :=
  if b.pos < b.mem.length then some ⟨b.mem.set b.pos x, b.pos + 1⟩ else none

/-- The algorithm `std::copy(first, last, b)` on the bytes `src` of `[first, last)`;
the result is the iterator past the last byte written. -/
def std_copy : List Nat → OutIt → Option OutIt
  | [], b => some b
  | x :: xs, b =>
    match b.put x with
    | none => none
    | some b₁ => std_copy xs b₁

/-! ## `detail::n_bytes_property<N>` -/

/-- The members of `detail::n_bytes_property<N>`. -/
structure n_bytes_property (N : Nat) where
  id_ : Nat
  buf_ : List Nat
  deriving DecidableEq, Repr

namespace n_bytes_property

/-- The constructor `n_bytes_property(char id, char val) : id_(id), buf_(val)`.
The initialiser `buf_(val)` has a single argument of type `char`, so it selects
`explicit static_vector(size_type count)` with `count` converted from `val`. -/
def ctor (N : Nat) (char_signed : Bool) (id val : Nat) : Except Thrown (n_bytes_property N) :=
  match static_vector.count_ctor N (char_to_size_t char_signed val) with
  | .error e => .error ⟨e, []⟩
  | .ok buf => .ok ⟨id, buf⟩

/-- The member `const_buffer_sequence()`: the region of `id_`, then the region of `buf_`. -/
def const_buffer_sequence {N : Nat} (p : n_bytes_property N) : List (List Nat) :=
  [[p.id_], p.buf_]

/-- The member `size()`. -/
def size {N : Nat} (p : n_bytes_property N) : Nat :=
  1 + p.buf_.length

/-- The member `fill(b, e)` on the destination `dst = [b, e)`: the bytes of the
destination afterwards; `none` when the assertion on the distance fails. -/
def fill {N : Nat} (p : n_bytes_property N) (dst : List Nat) : Option (List Nat) :=
  if dst.length ≠ p.size then none
  else
    match OutIt.put ⟨dst, 0⟩ p.id_ with
    | none => none
    | some b =>
      match std_copy p.buf_ b with
      | none => none
      | some r => some r.mem

end n_bytes_property

/-- The class `payload_format_indicator`, whose constructor forwards
`0x01` and `binary ? 0 : 1` to `n_bytes_property<1>`. -/
def payload_format_indicator (char_signed : Bool) (binary : Bool) :
    Except Thrown (n_bytes_property 1) :=
  n_bytes_property.ctor 1 char_signed 0x01 (if binary then 0 else 1)

/-! ## `detail::variable_length_property` -/

/-- The members of `detail::variable_length_property`. -/
structure variable_length_property where
  id_ : Nat
  buf_ : List Nat
  deriving DecidableEq, Repr

namespace variable_length_property

/-- The loop `while (size > 127) { buf_.emplace_back((size & 0x7f) | 0x80); size >>= 7; }`
on the state `(size, buf_)`; the result is the state at loop exit. -/
def while_loop (size : Nat) (buf_ : List Nat) : Except Thrown (Nat × List Nat) :=
  if _h : size > 127 then
    match static_vector.emplace_back 4 buf_ (to_char ((size &&& 0b01111111) ||| 0b10000000)) with
    | .error e => .error ⟨e, buf_⟩
    | .ok buf₁ => while_loop (size >>> 7) buf₁
  else .ok (size, buf_)
termination_by size
decreasing_by
  simp only [Nat.shiftRight_eq_div_pow]
  exact Nat.div_lt_self (by omega) (by norm_num)

/-- The body of the constructor, started on the default-constructed `buf_`. -/
def ctor_body (size : Nat) (buf_ : List Nat) : Except Thrown (List Nat) :=
  if size > 0xfffffff then .error ⟨.variable_length_error, buf_⟩
  else
    match while_loop size buf_ with
    | .error t => .error t
    | .ok (size₁, buf₁) =>
      match static_vector.emplace_back 4 buf₁ (to_char (size₁ &&& 0b01111111)) with
      | .error e => .error ⟨e, buf₁⟩
      | .ok buf₂ => .ok buf₂

/-- The constructor `variable_length_property(std::size_t id, std::size_t size)`:
`id_` is initialised from `id` (narrowed to `char`), `buf_` starts empty. -/
def ctor (id size : Nat) : Except Thrown variable_length_property :=
  match ctor_body size [] with
  | .error t => .error t
  | .ok buf => .ok ⟨to_char id, buf⟩

/-- The member `const_buffer_sequence()`. -/
def const_buffer_sequence (p : variable_length_property) : List (List Nat) :=
  [[p.id_], p.buf_]

/-- The member `size()`. -/
def size (p : variable_length_property) : Nat :=
  1 + p.buf_.length

/-- The member `fill(b, e)` on the destination `dst = [b, e)`. -/
def fill (p : variable_length_property) (dst : List Nat) : Option (List Nat) :=
  if dst.length ≠ p.size then none
  else
    match OutIt.put ⟨dst, 0⟩ p.id_ with
    | none => none
    | some b =>
      match std_copy p.buf_ b with
      | none => none
      | some r => some r.mem

end variable_length_property

/-! ## `user_property` -/

/-- The nested struct `user_property::len_str`: the length bytes `len`
(a `static_vector<char, 2>`) and the borrowed region `str`. -/
structure len_str where
  len : List Nat
  str : List Nat
  deriving DecidableEq, Repr

/-- The members of `user_property`: `entries_`, a vector of pairs of `len_str`. -/
structure user_property where
  entries_ : List (len_str × len_str)
  deriving DecidableEq, Repr

namespace user_property

/-- The member `char const id_ = 0x26`. -/
def id_ (_p : user_property) : Nat := 0x26

/-- The default constructor `user_property() {}`. -/
def ctor : user_property := ⟨[]⟩

/-- The member `const_buffer_sequence()`: the region of `id_`, then four
`emplace_back` calls for every entry. -/
def const_buffer_sequence (p : user_property) : List (List Nat) :=
  p.entries_.foldl
    (fun ret e => (((ret ++ [e.1.len]) ++ [e.1.str]) ++ [e.2.len]) ++ [e.2.str])
    [[p.id_]]

/-- One of the two blocks of the loop body of `fill`, on the `len_str` `s`:
`std::copy(s.len.begin(), s.len.end(), b); b += s.len.size();` and then
`std::copy(ptr, ptr + size, b); b += size;` for the region `s.str`. -/
def fill_len_str (b : OutIt) (s : len_str) : Option OutIt :=
  match std_copy s.len b with
  | none => none
  | some r₁ =>
    let b₁ : OutIt := ⟨r₁.mem, b.pos + s.len.length⟩
    match std_copy s.str b₁ with
    | none => none
    | some r₂ => some ⟨r₂.mem, b₁.pos + s.str.length⟩

/-- The loop `for (auto const& e : entries_)` of `fill`. -/
def fill_loop : List (len_str × len_str) → OutIt → Option OutIt
  | [], b => some b
  | e :: es, b =>
    match fill_len_str b e.1 with
    | none => none
    | some b₁ =>
      match fill_len_str b₁ e.2 with
      | none => none
      | some b₂ => fill_loop es b₂

/-- The member `size()`: one byte for `id_`, four length bytes for every entry,
and the sizes of the borrowed regions summed by the loop of the lambda. -/
def size (p : user_property) : Nat :=
  1 + p.entries_.length * 2 * 2 +
    p.entries_.foldl (fun size e => size + e.1.str.length + e.2.str.length) 0

/-- The member `fill(b, e)` on the destination `dst = [b, e)`, up to the state of
the iterator `b` when the function returns; `none` when the assertion fails or
a write leaves the range. -/
def fill_it (p : user_property) (dst : List Nat) : Option OutIt :=
  if dst.length ≠ p.size then none
  else
    match OutIt.put ⟨dst, 0⟩ p.id_ with
    | none => none
    | some b => fill_loop p.entries_ b

/-- The bytes of the destination after `fill(b, e)`. -/
def fill (p : user_property) (dst : List Nat) : Option (List Nat) :=
  (fill_it p dst).map OutIt.mem

end user_property

/-- Modelled from the spec: the two-byte big-endian length prefix of a string of
`n` bytes, which the append step (absent from this header) stores in `len_str::len`. -/
def two_byte_length (n : Nat) : List Nat := [n / 256 % 256, n % 256]

/-- Modelled from the spec: an entry as the append step (absent from this header)
stores it, each string borrowed and preceded by its two-byte length prefix. -/
def entry_of (key val : List Nat) : len_str × len_str :=
  (⟨two_byte_length key.length, key⟩, ⟨two_byte_length val.length, val⟩)

/-- The `user_property` of the worked example: the entries `("a", "1")` and
`("bb", "22")`, in this order. -/
def example_user_property : user_property :=
  ⟨[entry_of ['a'.toNat] ['1'.toNat], entry_of ['b'.toNat, 'b'.toNat] ['2'.toNat, '2'.toNat]]⟩

/-- The byte stream the specification gives for `example_user_property`. -/
def example_user_property_bytes : List Nat :=
  [0x26, 0x00, 0x01, 'a'.toNat, 0x00, 0x01, '1'.toNat,
    0x00, 0x02, 'b'.toNat, 'b'.toNat, 0x00, 0x02, '2'.toNat, '2'.toNat]

/-! ## Reading a variable-length integer back -/

/-- The high bit `0x80` of a byte is set. -/
def high_bit (b : Nat) : Bool := (b &&& 0x80) != 0

/-- The decoder as the specification words it: bytes are read in order, the low
seven bits of the `i`-th byte are the coefficient of `128 ^ i`, and reading stops
at the first byte whose high bit is clear. The result is the value and the bytes
left unread; `none` when the input ends before such a byte. -/
def decode : List Nat → Option (Nat × List Nat)
  | [] => none
  | b :: rest =>
    if high_bit b then
      match decode rest with
      | none => none
      | some (v, r) => some (b % 128 + 128 * v, r)
    else some (b % 128, rest)

/-! ## Closed forms used in the proofs -/

/-- The bytes the loop of the constructor appends for `v` when no append fails:
one byte with the high bit set for every group of seven bits that is followed
by a further non-zero group. -/
def cont_bytes (v : Nat) : List Nat :=
  if _h : v > 127 then (v % 128 + 128) :: cont_bytes (v / 128) else []
termination_by v
decreasing_by exact Nat.div_lt_self (by omega) (by norm_num)

/-- The value of `size` when the loop of the constructor exits. -/
def last_value (v : Nat) : Nat :=
  if _h : v > 127 then last_value (v / 128) else v
termination_by v
decreasing_by exact Nat.div_lt_self (by omega) (by norm_num)

/-- Horner form of the sum of `(b_i mod 128) * 128 ^ i` over the bytes of a list. -/
def weighted : List Nat → Nat
  | [] => 0
  | b :: rest => b % 128 + 128 * weighted rest

/-- The bytes of one `len_str` in wire order: the length bytes, then the string. -/
def len_str.bytes (s : len_str) : List Nat := s.len ++ s.str

/-- The bytes of a list of entries in wire order. -/
def entries_bytes : List (len_str × len_str) → List Nat
  | [] => []
  | e :: es => e.1.bytes ++ e.2.bytes ++ entries_bytes es

/-- The four regions `const_buffer_sequence()` appends for one entry, in the
order of the four `emplace_back` calls. -/
def entry_regions (e : len_str × len_str) : List (List Nat) :=
  [e.1.len, e.1.str, e.2.len, e.2.str]

/-- The sum over the entries of `len(key_i) + len(value_i)`. -/
def strings_total (es : List (len_str × len_str)) : Nat :=
  (es.map (fun e => e.1.str.length + e.2.str.length)).sum

/-- The loop of the constructor of `variable_length_property` run for at most
`fuel` evaluations of its condition: `none` when the fuel runs out before the
loop is left, otherwise the way the loop is left. -/
def while_loop_fuel : Nat → Nat → List Nat → Option (Except Thrown (Nat × List Nat))
  | 0, _, _ => none
  | fuel + 1, size, buf_ =>
    if size > 127 then
      match static_vector.emplace_back 4 buf_
          (to_char ((size &&& 0b01111111) ||| 0b10000000)) with
      | .error e => some (.error ⟨e, buf_⟩)
      | .ok buf₁ => while_loop_fuel fuel (size >>> 7) buf₁
    else some (.ok (size, buf_))

/-- A `user_property` whose first length field holds one byte only, which the
type `static_vector<char, 2>` allows: key `"a"` with length bytes `0x01`,
value `"1"` with length bytes `0x00, 0x01`. -/
def short_length_user_property : user_property :=
  ⟨[(⟨[0x01], ['a'.toNat]⟩, ⟨[0x00, 0x01], ['1'.toNat]⟩)]⟩

/-! ## Masks and shifts as arithmetic -/

theorem and_mask (x : Nat) : x &&& 0b01111111 = x % 128 :=
  Nat.and_pow_two_sub_one_eq_mod x 7

theorem or_flag (x : Nat) (h : x < 128) : x ||| 0b10000000 = x + 128 := by
  have key := Nat.mul_add_lt_is_or (i := 7) (b := x) (by simpa using h) 1
  rw [Nat.or_comm]
  simp only [Nat.reducePow, Nat.mul_one] at key
  omega

theorem shift_seven (x : Nat) : x >>> 7 = x / 128 := by
  simp [Nat.shiftRight_eq_div_pow]

theorem high_bit_iff (b : Nat) : high_bit b = true ↔ b / 128 % 2 = 1 := by
  unfold high_bit
  rw [show (0x80 : Nat) = 2 ^ 7 by norm_num, Nat.and_two_pow, Nat.testBit_to_div_mod]
  by_cases h : b / 2 ^ 7 % 2 = 1 <;> simp [h]

theorem high_bit_flagged (x : Nat) : high_bit (x % 128 + 128) = true := by
  rw [high_bit_iff]; omega

theorem high_bit_small (x : Nat) (h : x ≤ 127) : high_bit x = false := by
  have := high_bit_iff x
  cases hb : high_bit x with
  | false => rfl
  | true => rw [hb] at this; have := this.mp rfl; omega

/-! ## The loop of the constructor -/

theorem cont_bytes_small (v : Nat) (h : v ≤ 127) : cont_bytes v = [] := by
  rw [cont_bytes]; simp; omega

theorem cont_bytes_large (v : Nat) (h : 127 < v) :
    cont_bytes v = (v % 128 + 128) :: cont_bytes (v / 128) := by
  rw [cont_bytes]; simp [h]

theorem last_value_small (v : Nat) (h : v ≤ 127) : last_value v = v := by
  rw [last_value]; simp; omega

theorem last_value_large (v : Nat) (h : 127 < v) : last_value v = last_value (v / 128) := by
  rw [last_value]; simp [h]

theorem while_loop_eq (size : Nat) :
    ∀ buf : List Nat, buf.length + (cont_bytes size).length ≤ 4 →
      variable_length_property.while_loop size buf
        = .ok (last_value size, buf ++ cont_bytes size) := by
  induction size using Nat.strong_induction_on with
  | _ size ih =>
    intro buf hlen
    rw [variable_length_property.while_loop]
    by_cases h : size > 127
    · rw [cont_bytes_large size h] at hlen ⊢
      rw [last_value_large size h]
      simp only [List.length_cons] at hlen
      have hb : buf.length < 4 := by omega
      have hlt : size / 128 < size := Nat.div_lt_self (by omega) (by norm_num)
      have hbyte : to_char ((size &&& 0b01111111) ||| 0b10000000) = size % 128 + 128 := by
        rw [and_mask, or_flag _ (Nat.mod_lt _ (by norm_num))]
        unfold to_char; omega
      simp only [h, dite_true, static_vector.emplace_back, hb, if_true, hbyte, shift_seven]
      rw [ih (size / 128) hlt (buf ++ [size % 128 + 128]) (by simp; omega)]
      simp
    · rw [cont_bytes_small size (by omega), last_value_small size (by omega)]
      simp [h]

theorem cont_bytes_length_le (k : Nat) :
    ∀ v : Nat, v < 128 ^ (k + 1) → (cont_bytes v).length ≤ k := by
  induction k with
  | zero =>
    intro v hv
    rw [cont_bytes_small v (by simp at hv; omega)]; simp
  | succ k ih =>
    intro v hv
    by_cases h : v > 127
    · rw [cont_bytes_large v h, List.length_cons]
      have : v / 128 < 128 ^ (k + 1) := by
        rw [Nat.div_lt_iff_lt_mul (by norm_num)]
        calc v < 128 ^ (k + 1 + 1) := hv
          _ = 128 ^ (k + 1) * 128 := by rw [pow_succ]
      have := ih (v / 128) this
      omega
    · rw [cont_bytes_small v (by omega)]; simp

theorem cont_bytes_length_ge (k : Nat) :
    ∀ v : Nat, 128 ^ k ≤ v → k ≤ (cont_bytes v).length := by
  induction k with
  | zero => intro v _; exact Nat.zero_le _
  | succ k ih =>
    intro v hv
    have h128 : 128 ≤ v := by
      calc 128 = 128 ^ 1 := by norm_num
        _ ≤ 128 ^ (k + 1) := Nat.pow_le_pow_right (by norm_num) (by omega)
        _ ≤ v := hv
    rw [cont_bytes_large v (by omega), List.length_cons]
    have : 128 ^ k ≤ v / 128 := by
      rw [Nat.le_div_iff_mul_le (by norm_num)]
      calc 128 ^ k * 128 = 128 ^ (k + 1) := by rw [pow_succ]
        _ ≤ v := hv
    have := ih (v / 128) this
    omega

theorem last_value_le (v : Nat) : last_value v ≤ 127 := by
  induction v using Nat.strong_induction_on with
  | _ v ih =>
    by_cases h : v > 127
    · rw [last_value_large v h]
      exact ih (v / 128) (Nat.div_lt_self (by omega) (by norm_num))
    · rw [last_value_small v (by omega)]; omega

theorem last_value_pos (v : Nat) (hv : 0 < v) : 0 < last_value v := by
  induction v using Nat.strong_induction_on with
  | _ v ih =>
    by_cases h : v > 127
    · rw [last_value_large v h]
      exact ih (v / 128) (Nat.div_lt_self (by omega) (by norm_num)) (by omega)
    · rw [last_value_small v (by omega)]; exact hv

theorem cont_bytes_high (v : Nat) : ∀ b ∈ cont_bytes v, high_bit b = true := by
  induction v using Nat.strong_induction_on with
  | _ v ih =>
    intro b hb
    by_cases h : v > 127
    · rw [cont_bytes_large v h, List.mem_cons] at hb
      rcases hb with hb | hb
      · rw [hb]; exact high_bit_flagged v
      · exact ih (v / 128) (Nat.div_lt_self (by omega) (by norm_num)) b hb
    · rw [cont_bytes_small v (by omega)] at hb; simp at hb

theorem decode_encoded (v : Nat) (rest : List Nat) :
    decode (cont_bytes v ++ last_value v :: rest) = some (v, rest) := by
  induction v using Nat.strong_induction_on with
  | _ v ih =>
    by_cases h : v > 127
    · rw [cont_bytes_large v h, last_value_large v h, List.cons_append, decode,
        high_bit_flagged, if_pos rfl,
        ih (v / 128) (Nat.div_lt_self (by omega) (by norm_num))]
      simp only [Option.some.injEq, Prod.mk.injEq, and_true]
      omega
    · rw [cont_bytes_small v (by omega), last_value_small v (by omega), List.nil_append,
        decode, high_bit_small v (by omega)]
      simp only [Bool.false_eq_true, if_false, Option.some.injEq, Prod.mk.injEq, and_true]
      omega

theorem weighted_encoded (v : Nat) : weighted (cont_bytes v ++ [last_value v]) = v := by
  induction v using Nat.strong_induction_on with
  | _ v ih =>
    by_cases h : v > 127
    · rw [cont_bytes_large v h, last_value_large v h, List.cons_append, weighted,
        ih (v / 128) (Nat.div_lt_self (by omega) (by norm_num))]
      omega
    · rw [cont_bytes_small v (by omega), last_value_small v (by omega)]
      simp only [List.nil_append, weighted]
      omega

theorem weighted_eq_sum (l : List Nat) :
    ∑ i : Fin l.length, (l.get i % 128) * 128 ^ (i : Nat) = weighted l := by
  induction l with
  | nil => simp [weighted]
  | cons b rest ih =>
    simp only [List.length_cons, weighted]
    rw [Fin.sum_univ_succ]
    simp only [Fin.val_zero, pow_zero, mul_one, Fin.val_succ, pow_succ, List.get_eq_getElem,
      List.getElem_cons_succ, List.getElem_cons_zero]
    rw [← ih, Finset.mul_sum]
    congr 1
    apply Finset.sum_congr rfl
    intro i _
    simp only [List.get_eq_getElem]
    ring

/-- The constructor in closed form: it succeeds on every value up to `0xfffffff`
and stores the continuation bytes followed by the final byte. -/
theorem ctor_body_eq (v : Nat) (hv : v ≤ 0xfffffff) :
    variable_length_property.ctor_body v [] = .ok (cont_bytes v ++ [last_value v]) := by
  have hlen : (cont_bytes v).length ≤ 3 :=
    cont_bytes_length_le 3 v (by norm_num at hv ⊢; omega)
  have hlast : to_char (last_value v &&& 0b01111111) = last_value v := by
    have := last_value_le v
    rw [and_mask]; unfold to_char; omega
  unfold variable_length_property.ctor_body
  rw [if_neg (by omega), while_loop_eq v [] (by simp; omega)]
  simp only [List.nil_append, static_vector.emplace_back, hlast]
  rw [if_pos (by omega)]

theorem ctor_eq (id v : Nat) (hv : v ≤ 0xfffffff) :
    variable_length_property.ctor id v
      = .ok ⟨to_char id, cont_bytes v ++ [last_value v]⟩ := by
  unfold variable_length_property.ctor
  rw [ctor_body_eq v hv]

theorem ctor_too_large (id v : Nat) (hv : 0xfffffff < v) :
    variable_length_property.ctor id v = .error ⟨.variable_length_error, []⟩ := by
  unfold variable_length_property.ctor variable_length_property.ctor_body
  rw [if_pos hv]

/-! ## Copying into the destination range -/

theorem put_eq (pre : List Nat) (m : Nat) (post : List Nat) (x : Nat) :
    OutIt.put ⟨pre ++ m :: post, pre.length⟩ x
      = some ⟨(pre ++ [x]) ++ post, (pre ++ [x]).length⟩ := by
  unfold OutIt.put
  simp

theorem std_copy_eq (src : List Nat) :
    ∀ pre mid post : List Nat, mid.length = src.length →
      std_copy src ⟨pre ++ mid ++ post, pre.length⟩
        = some ⟨pre ++ src ++ post, pre.length + src.length⟩ := by
  induction src with
  | nil =>
    intro pre mid post h
    have hmid : mid = [] := List.length_eq_zero.mp h
    subst hmid
    simp [std_copy]
  | cons x xs ih =>
    intro pre mid post h
    match mid, h with
    | m :: ms, h =>
      simp only [List.length_cons, Nat.add_right_cancel_iff] at h
      have hput := put_eq pre m (ms ++ post) x
      rw [std_copy]
      simp only [List.append_assoc, List.cons_append] at hput ⊢
      rw [hput]
      have step := ih (pre ++ [x]) ms post h
      simp only [List.append_assoc, List.cons_append, List.nil_append, List.length_append,
        List.length_cons, List.length_nil] at step ⊢
      rw [step]
      simp only [Option.some.injEq, OutIt.mk.injEq, true_and]
      omega

/-- A list at least `n` long splits into its first `n` elements and the rest. -/
theorem split_at_length (l : List Nat) (n : Nat) (h : n ≤ l.length) :
    ∃ a b : List Nat, l = a ++ b ∧ a.length = n :=
  ⟨l.take n, l.drop n, (List.take_append_drop n l).symm, by rw [List.length_take]; omega⟩

/-- Writing `id` and then copying `buf` into a range of `1 + buf.length` bytes
leaves exactly `id :: buf` in the range. -/
theorem put_then_copy (id : Nat) (buf dst : List Nat) (h : dst.length = 1 + buf.length) :
    (match OutIt.put ⟨dst, 0⟩ id with
      | none => none
      | some b =>
        match std_copy buf b with
        | none => none
        | some r => some r.mem) = some (id :: buf) := by
  cases dst with
  | nil => simp only [List.length_nil] at h; omega
  | cons d ds =>
    have hds : ds.length = buf.length := by simp only [List.length_cons] at h; omega
    have hput := put_eq [] d ds id
    have hcopy := std_copy_eq buf [id] ds [] hds
    simp only [List.nil_append, List.length_nil, List.length_cons, List.append_nil,
      List.cons_append, Nat.zero_add] at hput hcopy
    rw [hput]
    simp only
    rw [hcopy]

/-! ## The loop of `user_property::fill` -/

theorem fill_len_str_eq (s : len_str) (pre mid post : List Nat)
    (h : mid.length = s.bytes.length) :
    user_property.fill_len_str ⟨pre ++ mid ++ post, pre.length⟩ s
      = some ⟨pre ++ s.bytes ++ post, (pre ++ s.bytes).length⟩ := by
  simp only [len_str.bytes, List.length_append] at h
  obtain ⟨m₁, m₂, rfl, h₁⟩ := split_at_length mid s.len.length (by omega)
  have h₂ : m₂.length = s.str.length := by
    simp only [List.length_append] at h; omega
  have c₁ := std_copy_eq s.len pre m₁ (m₂ ++ post) h₁
  have c₂ := std_copy_eq s.str (pre ++ s.len) m₂ post h₂
  unfold user_property.fill_len_str
  simp only [List.append_assoc, List.length_append] at c₁ c₂ ⊢
  rw [c₁]
  simp only
  rw [c₂]
  simp only [len_str.bytes, List.append_assoc, List.length_append, Option.some.injEq,
    OutIt.mk.injEq, true_and]
  omega

theorem fill_loop_eq (es : List (len_str × len_str)) :
    ∀ pre mid post : List Nat, mid.length = (entries_bytes es).length →
      user_property.fill_loop es ⟨pre ++ mid ++ post, pre.length⟩
        = some ⟨pre ++ entries_bytes es ++ post, (pre ++ entries_bytes es).length⟩ := by
  induction es with
  | nil =>
    intro pre mid post h
    have hmid : mid = [] := List.length_eq_zero.mp h
    subst hmid
    simp [user_property.fill_loop, entries_bytes]
  | cons e es ih =>
    intro pre mid post h
    simp only [entries_bytes, List.length_append] at h
    obtain ⟨m₁, rest₁, rfl, h₁⟩ := split_at_length mid e.1.bytes.length (by omega)
    simp only [List.length_append] at h
    obtain ⟨m₂, m₃, rfl, h₂⟩ := split_at_length rest₁ e.2.bytes.length (by omega)
    have h₃ : m₃.length = (entries_bytes es).length := by
      simp only [List.length_append] at h; omega
    have c₁ := fill_len_str_eq e.1 pre m₁ (m₂ ++ m₃ ++ post) h₁
    have c₂ := fill_len_str_eq e.2 (pre ++ e.1.bytes) m₂ (m₃ ++ post) h₂
    have c₃ := ih (pre ++ e.1.bytes ++ e.2.bytes) m₃ post h₃
    rw [user_property.fill_loop]
    simp only [List.append_assoc] at c₁ c₂ c₃ ⊢
    rw [c₁]
    simp only
    rw [c₂]
    simp only
    rw [c₃]
    simp only [entries_bytes, List.append_assoc]

theorem const_buffer_sequence_fold (es : List (len_str × len_str)) :
    ∀ acc : List (List Nat),
      (es.foldl
        (fun ret e => (((ret ++ [e.1.len]) ++ [e.1.str]) ++ [e.2.len]) ++ [e.2.str]) acc).flatten
        = acc.flatten ++ entries_bytes es := by
  induction es with
  | nil => intro acc; simp [entries_bytes]
  | cons e es ih =>
    intro acc
    rw [List.foldl_cons, ih]
    simp [entries_bytes, len_str.bytes]

theorem user_const_buffer_sequence_flatten (p : user_property) :
    p.const_buffer_sequence.flatten = p.id_ :: entries_bytes p.entries_ := by
  unfold user_property.const_buffer_sequence
  rw [const_buffer_sequence_fold]
  simp

/-- The state of the iterator after `user_property::fill`, for a destination of
`size()` bytes that is at least as long as the encoded bytes: the encoded bytes,
then the bytes `rest` of the destination that were not written. -/
theorem user_fill_it_eq (p : user_property) (d : Nat) (mid rest : List Nat)
    (hsize : (d :: (mid ++ rest)).length = p.size)
    (hmid : mid.length = (entries_bytes p.entries_).length) :
    p.fill_it (d :: (mid ++ rest))
      = some ⟨p.id_ :: (entries_bytes p.entries_ ++ rest),
              1 + (entries_bytes p.entries_).length⟩ := by
  unfold user_property.fill_it
  rw [if_neg (by simpa using hsize)]
  have hput := put_eq [] d (mid ++ rest) p.id_
  have hloop := fill_loop_eq p.entries_ [p.id_] mid rest hmid
  simp only [List.cons_append, List.nil_append, List.length_cons, List.length_nil,
    List.length_append, Nat.zero_add, List.append_assoc] at hput hloop
  rw [hput]
  simp only
  rw [hloop]
  simp only [Option.some.injEq, OutIt.mk.injEq, true_and]
  omega

/-! ## Length of the encoding and bounds on decoded values -/

theorem encoded_length_one (v : Nat) (h : v ≤ 127) :
    (cont_bytes v ++ [last_value v]).length = 1 := by
  rw [cont_bytes_small v h]; rfl

theorem encoded_length_succ (k v : Nat) (hlo : 128 ^ k ≤ v) (hhi : v < 128 ^ (k + 1)) :
    (cont_bytes v ++ [last_value v]).length = k + 1 := by
  have h₁ := cont_bytes_length_le k v hhi
  have h₂ := cont_bytes_length_ge k v hlo
  simp only [List.length_append, List.length_cons, List.length_nil]
  omega

theorem decode_lt (bs : List Nat) :
    ∀ v r, decode bs = some (v, r) → v < 128 ^ bs.length := by
  induction bs with
  | nil => intro v r h; simp [decode] at h
  | cons b rest ih =>
    intro v r h
    rw [decode] at h
    by_cases hb : high_bit b = true
    · rw [if_pos hb] at h
      cases hd : decode rest with
      | none => rw [hd] at h; simp at h
      | some w =>
        obtain ⟨w, r₁⟩ := w
        rw [hd] at h
        simp only [Option.some.injEq, Prod.mk.injEq] at h
        have hw := ih w r₁ hd
        rw [List.length_cons, pow_succ]
        have : b % 128 < 128 := Nat.mod_lt _ (by norm_num)
        omega
    · rw [if_neg hb] at h
      simp only [Option.some.injEq, Prod.mk.injEq] at h
      have : b % 128 < 128 := Nat.mod_lt _ (by norm_num)
      have hpow : 128 ^ 1 ≤ 128 ^ (b :: rest).length :=
        Nat.pow_le_pow_right (by norm_num) (by simp)
      omega

/-! ## The variable-length integer of `variable_length_property` -/

/-- C1: for every value `v` with `0 ≤ v ≤ 268435455` the constructor succeeds and
the value bytes it stores decode back to `v`: the decoder consumes all of them,
and the sum over `i` of `(b_i mod 128) * 128 ^ i` is `v`. -/
theorem variable_length_roundtrip (id v : Nat) (hv : v ≤ 268435455) :
    ∃ p : variable_length_property,
      variable_length_property.ctor id v = .ok p ∧
      decode p.buf_ = some (v, []) ∧
      ∑ i : Fin p.buf_.length, (p.buf_.get i % 128) * 128 ^ (i : Nat) = v := by
  refine ⟨⟨to_char id, cont_bytes v ++ [last_value v]⟩, ctor_eq id v hv, ?_, ?_⟩
  · exact decode_encoded v []
  · rw [weighted_eq_sum]; exact weighted_encoded v

theorem variable_length_roundtrip_witness :
    ∃ p : variable_length_property,
      variable_length_property.ctor 0x0b 300 = .ok p ∧
      decode p.buf_ = some (300, []) ∧
      ∑ i : Fin p.buf_.length, (p.buf_.get i % 128) * 128 ^ (i : Nat) = 300 :=
  variable_length_roundtrip 0x0b 300 (by decide)

/-- C2: construction fails with `variable_length_error` exactly when
`v > 0x0FFFFFFF`; no other exception leaves the constructor, and at the throw
the value buffer is still empty. The value 268435455 is accepted and gives four
value bytes; 268435456 is rejected. -/
theorem variable_length_range_check (id v : Nat) :
    ((∃ buf, variable_length_property.ctor id v = .error ⟨.variable_length_error, buf⟩)
        ↔ v > 0x0FFFFFFF) ∧
    (∀ t, variable_length_property.ctor id v = .error t →
        t = ⟨.variable_length_error, []⟩) ∧
    (∃ p : variable_length_property,
        variable_length_property.ctor id 268435455 = .ok p ∧ p.buf_.length = 4) ∧
    variable_length_property.ctor id 268435456 = .error ⟨.variable_length_error, []⟩ := by
  refine ⟨⟨?_, ?_⟩, ?_, ?_, ?_⟩
  · rintro ⟨buf, h⟩
    by_contra hle
    rw [ctor_eq id v (by omega)] at h
    cases h
  · intro hv
    exact ⟨[], ctor_too_large id v hv⟩
  · intro t h
    by_cases hv : v ≤ 0xfffffff
    · rw [ctor_eq id v hv] at h; cases h
    · rw [ctor_too_large id v (by omega)] at h
      cases h; rfl
  · exact ⟨_, ctor_eq id 268435455 (by decide),
      encoded_length_succ 3 268435455 (by norm_num) (by norm_num)⟩
  · exact ctor_too_large id 268435456 (by decide)

/-- C3: for every accepted `v` the number of value bytes is 1 for `0..127`,
2 for `128..16383`, 3 for `16384..2097151` and 4 for `2097152..268435455`. -/
theorem variable_length_size_table (id v : Nat) (hv : v ≤ 268435455) :
    ∃ p : variable_length_property,
      variable_length_property.ctor id v = .ok p ∧
      (v ≤ 127 → p.buf_.length = 1) ∧
      (128 ≤ v ∧ v ≤ 16383 → p.buf_.length = 2) ∧
      (16384 ≤ v ∧ v ≤ 2097151 → p.buf_.length = 3) ∧
      (2097152 ≤ v ∧ v ≤ 268435455 → p.buf_.length = 4) := by
  refine ⟨⟨to_char id, cont_bytes v ++ [last_value v]⟩, ctor_eq id v hv, ?_, ?_, ?_, ?_⟩
  · exact encoded_length_one v
  · rintro ⟨hlo, hhi⟩
    exact encoded_length_succ 1 v (by norm_num; omega) (by norm_num; omega)
  · rintro ⟨hlo, hhi⟩
    exact encoded_length_succ 2 v (by norm_num; omega) (by norm_num; omega)
  · rintro ⟨hlo, hhi⟩
    exact encoded_length_succ 3 v (by norm_num; omega) (by norm_num; omega)

theorem variable_length_size_table_witness :
    ∃ p : variable_length_property,
      variable_length_property.ctor 0x0b 16384 = .ok p ∧
      (16384 ≤ 127 → p.buf_.length = 1) ∧
      (128 ≤ 16384 ∧ 16384 ≤ 16383 → p.buf_.length = 2) ∧
      (16384 ≤ 16384 ∧ 16384 ≤ 2097151 → p.buf_.length = 3) ∧
      (2097152 ≤ 16384 ∧ 16384 ≤ 268435455 → p.buf_.length = 4) :=
  variable_length_size_table 0x0b 16384 (by decide)

/-- C4: for every `v` in `0..127` the constructor stores exactly one value
byte, and that byte is `v`. -/
theorem variable_length_single_byte (id v : Nat) (hv : v ≤ 127) :
    ∃ p : variable_length_property,
      variable_length_property.ctor id v = .ok p ∧ p.buf_ = [v] := by
  refine ⟨⟨to_char id, cont_bytes v ++ [last_value v]⟩, ctor_eq id v (by omega), ?_⟩
  rw [cont_bytes_small v hv, last_value_small v hv]; rfl

theorem variable_length_single_byte_witness :
    ∃ p : variable_length_property,
      variable_length_property.ctor 0x0b 100 = .ok p ∧ p.buf_ = [100] :=
  variable_length_single_byte 0x0b 100 (by decide)

/-- C5: for every accepted `v`, every value byte except the last has its high
bit `0x80` set and the last value byte has its high bit clear. -/
theorem variable_length_continuation_bits (id v : Nat) (hv : v ≤ 0x0FFFFFFF) :
    ∃ p : variable_length_property,
      variable_length_property.ctor id v = .ok p ∧
      (∀ b ∈ p.buf_.dropLast, high_bit b = true) ∧
      (∃ last, p.buf_.getLast? = some last ∧ high_bit last = false) := by
  refine ⟨⟨to_char id, cont_bytes v ++ [last_value v]⟩, ctor_eq id v hv, ?_, ?_⟩
  · intro b hb
    rw [List.dropLast_concat] at hb
    exact cont_bytes_high v b hb
  · exact ⟨last_value v, by simp, high_bit_small _ (last_value_le v)⟩

theorem variable_length_continuation_bits_witness :
    ∃ p : variable_length_property,
      variable_length_property.ctor 0x0b 100000 = .ok p ∧
      (∀ b ∈ p.buf_.dropLast, high_bit b = true) ∧
      (∃ last, p.buf_.getLast? = some last ∧ high_bit last = false) :=
  variable_length_continuation_bits 0x0b 100000 (by decide)

/-- C6: for every accepted `v` the encoding has no padding byte: when more than
one value byte is stored the last one is not zero, and no byte sequence that
decodes to `v` (consuming all its bytes) is shorter than the stored one. -/
theorem variable_length_minimal (id v : Nat) (hv : v ≤ 0x0FFFFFFF) :
    ∃ p : variable_length_property,
      variable_length_property.ctor id v = .ok p ∧
      (1 < p.buf_.length → p.buf_.getLast? ≠ some 0) ∧
      (∀ bs : List Nat, decode bs = some (v, []) → p.buf_.length ≤ bs.length) := by
  refine ⟨⟨to_char id, cont_bytes v ++ [last_value v]⟩, ctor_eq id v hv, ?_, ?_⟩
  · intro hlen
    have hbig : 127 < v := by
      by_contra hsmall
      have hone := encoded_length_one v (by omega)
      dsimp only at hlen
      omega
    have hpos := last_value_pos v (by omega)
    have hlast : (cont_bytes v ++ [last_value v]).getLast? = some (last_value v) := by simp
    dsimp only
    rw [hlast]
    intro h
    simp only [Option.some.injEq] at h
    omega
  · intro bs hbs
    have hlt := decode_lt bs v [] hbs
    dsimp only
    cases hbl : bs.length with
    | zero =>
      have : bs = [] := List.length_eq_zero.mp hbl
      subst this
      simp [decode] at hbs
    | succ n =>
      rw [hbl] at hlt
      have := cont_bytes_length_le n v hlt
      simp only [List.length_append, List.length_cons, List.length_nil]
      omega

theorem variable_length_minimal_witness :
    ∃ p : variable_length_property,
      variable_length_property.ctor 0x0b 128 = .ok p ∧
      (1 < p.buf_.length → p.buf_.getLast? ≠ some 0) ∧
      (∀ bs : List Nat, decode bs = some (128, []) → p.buf_.length ≤ bs.length) :=
  variable_length_minimal 0x0b 128 (by decide)

/-! ## Fixed-size properties -/

/-- The constructor of `n_bytes_property<N>` in closed form, for a value byte
below 128 (where the signedness of `char` plays no part): `buf_` receives `val`
zero bytes when `val ≤ N`, and the construction raises `bad_alloc` otherwise. -/
theorem n_bytes_ctor_eq (N : Nat) (cs : Bool) (id val : Nat) (hval : val < 128) :
    n_bytes_property.ctor N cs id val
      = if val ≤ N then .ok ⟨id, List.replicate val 0⟩ else .error ⟨.bad_alloc, []⟩ := by
  have hconv : char_to_size_t cs val = val := by
    unfold char_to_size_t
    rw [if_neg]
    simp only [Bool.and_eq_true, decide_eq_true_eq, not_and, not_le]
    intro _; exact hval
  unfold n_bytes_property.ctor static_vector.count_ctor
  rw [hconv]
  by_cases h : val ≤ N
  · rw [if_neg (by omega), if_pos h]
  · rw [if_pos (by omega), if_neg h]

/-- C7, at the failing inputs: `payload_format_indicator(true)` is built with an
empty value region, so its buffer sequence concatenates to the single byte
`0x01`, not `0x01, 0x00`; `payload_format_indicator(false)` concatenates to
`0x01, 0x00`, not `0x01, 0x01`. The signedness of `char` makes no difference. -/
theorem payload_format_indicator_wire_bytes :
    ∀ cs : Bool,
      (∃ p, payload_format_indicator cs true = .ok p ∧
        p.const_buffer_sequence = [[0x01], []] ∧
        p.const_buffer_sequence.flatten = [0x01]) ∧
      (∃ p, payload_format_indicator cs false = .ok p ∧
        p.const_buffer_sequence = [[0x01], [0x00]] ∧
        p.const_buffer_sequence.flatten = [0x01, 0x00]) := by
  intro cs
  cases cs
  · exact ⟨⟨⟨0x01, []⟩, rfl, rfl, rfl⟩, ⟨⟨0x01, [0x00]⟩, rfl, rfl, rfl⟩⟩
  · exact ⟨⟨⟨0x01, []⟩, rfl, rfl, rfl⟩, ⟨⟨0x01, [0x00]⟩, rfl, rfl, rfl⟩⟩

/-- C8, at the failing input: `payload_format_indicator(true).size()` is 1, not
`1 + N = 2`; `payload_format_indicator(false).size()` is 2. -/
theorem payload_format_indicator_size_value :
    ∀ cs : Bool,
      (∃ p, payload_format_indicator cs true = .ok p ∧ p.size = 1) ∧
      (∃ p, payload_format_indicator cs false = .ok p ∧ p.size = 2) := by
  intro cs
  cases cs
  · exact ⟨⟨⟨0x01, []⟩, rfl, rfl⟩, ⟨⟨0x01, [0x00]⟩, rfl, rfl⟩⟩
  · exact ⟨⟨⟨0x01, []⟩, rfl, rfl⟩, ⟨⟨0x01, [0x00]⟩, rfl, rfl⟩⟩

/-! ## `fill` against `const_buffer_sequence` -/

/-- C9: for every `n_bytes_property` object and every `variable_length_property`
object, `fill` on a destination of `size()` bytes leaves in it exactly the
concatenation, in order, of the regions of `const_buffer_sequence()`, and that
concatenation is `size()` bytes long. -/
theorem fill_eq_const_buffer_sequence :
    (∀ (N : Nat) (p : n_bytes_property N) (dst : List Nat), dst.length = p.size →
      p.fill dst = some p.const_buffer_sequence.flatten ∧
      p.const_buffer_sequence.flatten.length = p.size) ∧
    (∀ (p : variable_length_property) (dst : List Nat), dst.length = p.size →
      p.fill dst = some p.const_buffer_sequence.flatten ∧
      p.const_buffer_sequence.flatten.length = p.size) := by
  constructor
  · intro N p dst h
    constructor
    · unfold n_bytes_property.fill
      rw [if_neg (by simpa using h)]
      rw [put_then_copy p.id_ p.buf_ dst h]
      simp [n_bytes_property.const_buffer_sequence]
    · simp [n_bytes_property.const_buffer_sequence, n_bytes_property.size]; omega
  · intro p dst h
    constructor
    · unfold variable_length_property.fill
      rw [if_neg (by simpa using h)]
      rw [put_then_copy p.id_ p.buf_ dst h]
      simp [variable_length_property.const_buffer_sequence]
    · simp [variable_length_property.const_buffer_sequence, variable_length_property.size]
      omega

theorem fill_eq_const_buffer_sequence_witness :
    ((⟨0x01, [0x00]⟩ : n_bytes_property 1).fill [0xff, 0xff]
        = some (⟨0x01, [0x00]⟩ : n_bytes_property 1).const_buffer_sequence.flatten ∧
      (⟨0x01, [0x00]⟩ : n_bytes_property 1).const_buffer_sequence.flatten.length
        = (⟨0x01, [0x00]⟩ : n_bytes_property 1).size) ∧
    ((⟨0x0b, [0x80, 0x01]⟩ : variable_length_property).fill [0xff, 0xff, 0xff]
        = some (⟨0x0b, [0x80, 0x01]⟩ : variable_length_property).const_buffer_sequence.flatten ∧
      (⟨0x0b, [0x80, 0x01]⟩ : variable_length_property).const_buffer_sequence.flatten.length
        = (⟨0x0b, [0x80, 0x01]⟩ : variable_length_property).size) :=
  ⟨fill_eq_const_buffer_sequence.1 1 ⟨0x01, [0x00]⟩ [0xff, 0xff] rfl,
    fill_eq_const_buffer_sequence.2 ⟨0x0b, [0x80, 0x01]⟩ [0xff, 0xff, 0xff] rfl⟩

/-! ## The worked example of `user_property` -/

/-- C10: for the `user_property` with the entries `("a", "1")` and `("bb", "22")`,
each stored with the two-byte big-endian length prefix of its string, `size()` is
15, the regions of `const_buffer_sequence()` concatenate to
`0x26, 0x00,0x01,'a', 0x00,0x01,'1', 0x00,0x02,'b','b', 0x00,0x02,'2','2'`, and
`fill` leaves the same bytes in any destination of 15 bytes. -/
theorem user_property_worked_example :
    example_user_property.size = 15 ∧
    example_user_property.const_buffer_sequence.flatten = example_user_property_bytes ∧
    (∀ dst : List Nat, dst.length = 15 →
      example_user_property.fill dst = some example_user_property_bytes) := by
  refine ⟨rfl, rfl, ?_⟩
  intro dst h
  cases dst with
  | nil => simp at h
  | cons d mid =>
    have hmid : mid.length = 14 := by simp only [List.length_cons] at h; omega
    have key := user_fill_it_eq example_user_property d mid []
      (by rw [List.append_nil]; exact h) hmid
    rw [List.append_nil] at key
    unfold user_property.fill
    rw [key]
    rfl

theorem user_property_worked_example_witness :
    example_user_property.fill (List.replicate 15 0) = some example_user_property_bytes :=
  user_property_worked_example.2.2 (List.replicate 15 0) rfl

/-! ## Regions and size of `user_property` -/

theorem const_buffer_sequence_regions (es : List (len_str × len_str)) :
    ∀ acc : List (List Nat),
      es.foldl
        (fun ret e => (((ret ++ [e.1.len]) ++ [e.1.str]) ++ [e.2.len]) ++ [e.2.str]) acc
        = acc ++ es.flatMap entry_regions := by
  induction es with
  | nil => intro acc; simp
  | cons e es ih =>
    intro acc
    rw [List.foldl_cons, ih, List.flatMap_cons]
    simp [entry_regions]

theorem flatMap_entry_regions_length (es : List (len_str × len_str)) :
    (es.flatMap entry_regions).length = 4 * es.length := by
  induction es with
  | nil => rfl
  | cons e es ih =>
    rw [List.flatMap_cons, List.length_append, ih]
    simp only [entry_regions, List.length_cons, List.length_nil]
    omega

theorem size_loop_eq (es : List (len_str × len_str)) :
    ∀ acc : Nat,
      es.foldl (fun size e => size + e.1.str.length + e.2.str.length) acc
        = acc + strings_total es := by
  induction es with
  | nil => intro acc; simp [strings_total]
  | cons e es ih =>
    intro acc
    rw [List.foldl_cons, ih]
    simp only [strings_total, List.map_cons, List.sum_cons]
    omega

theorem user_size_eq (p : user_property) :
    p.size = 1 + 4 * p.entries_.length + strings_total p.entries_ := by
  unfold user_property.size
  rw [size_loop_eq]
  omega

/-- C11: for the default-constructed `user_property`, which has no entries,
`size()` is 1 and `const_buffer_sequence()` holds exactly one region, the
single identifier byte `0x26`. -/
theorem user_property_empty :
    user_property.ctor.entries_ = [] ∧
    user_property.ctor.size = 1 ∧
    user_property.ctor.const_buffer_sequence = [[0x26]] ∧
    user_property.ctor.const_buffer_sequence.length = 1 :=
  ⟨rfl, rfl, rfl, rfl⟩

/-- C12: for every `user_property` with `n` entries, `const_buffer_sequence()`
returns exactly `1 + 4 * n` regions: the region of the identifier byte first,
then for each entry in insertion order its key length bytes, key bytes, value
length bytes and value bytes. -/
theorem user_property_regions (p : user_property) :
    p.const_buffer_sequence.length = 1 + 4 * p.entries_.length ∧
    p.const_buffer_sequence
      = [0x26] :: p.entries_.flatMap (fun e => [e.1.len, e.1.str, e.2.len, e.2.str]) := by
  have h : p.const_buffer_sequence = [0x26] :: p.entries_.flatMap entry_regions := by
    unfold user_property.const_buffer_sequence
    rw [const_buffer_sequence_regions]
    rfl
  constructor
  · rw [h, List.length_cons, flatMap_entry_regions_length]
    omega
  · exact h

/-- C13: for every `user_property` with entries `(key_1, value_1)`, ...,
`(key_n, value_n)`, `size()` is `1 + 4 * n` plus the sum over `i` of
`len(key_i) + len(value_i)`, the lengths being those of the borrowed regions. -/
theorem user_property_size_formula (p : user_property) :
    p.size = 1 + 4 * p.entries_.length
      + (p.entries_.map (fun e => e.1.str.length + e.2.str.length)).sum :=
  user_size_eq p

/-! ## `user_property::fill` against `size()` and `const_buffer_sequence()` -/

theorem entries_bytes_length_le (es : List (len_str × len_str))
    (hcap : ∀ e ∈ es, e.1.len.length ≤ 2 ∧ e.2.len.length ≤ 2) :
    (entries_bytes es).length ≤ 4 * es.length + strings_total es := by
  induction es with
  | nil => simp [entries_bytes]
  | cons e es ih =>
    have he := hcap e (List.mem_cons_self e es)
    have hes := ih (fun x hx => hcap x (List.mem_cons_of_mem e hx))
    simp only [entries_bytes, len_str.bytes, List.length_append, List.length_cons,
      strings_total, List.map_cons, List.sum_cons] at hes ⊢
    omega

theorem entries_bytes_length_eq (es : List (len_str × len_str))
    (htwo : ∀ e ∈ es, e.1.len.length = 2 ∧ e.2.len.length = 2) :
    (entries_bytes es).length = 4 * es.length + strings_total es := by
  induction es with
  | nil => simp [entries_bytes, strings_total]
  | cons e es ih =>
    have he := htwo e (List.mem_cons_self e es)
    have hes := ih (fun x hx => htwo x (List.mem_cons_of_mem e hx))
    simp only [entries_bytes, len_str.bytes, List.length_append, List.length_cons,
      strings_total, List.map_cons, List.sum_cons] at hes ⊢
    omega

/-- The state of the iterator after `user_property::fill` on a destination of
`size()` bytes, when the encoded bytes fit: they are written from the start of
the destination, and the bytes after them are left as they were. -/
theorem user_fill_it_general (p : user_property) (dst : List Nat)
    (hdst : dst.length = p.size)
    (hfit : 1 + (entries_bytes p.entries_).length ≤ p.size) :
    p.fill_it dst
      = some ⟨p.id_ :: (entries_bytes p.entries_
                ++ dst.drop (1 + (entries_bytes p.entries_).length)),
              1 + (entries_bytes p.entries_).length⟩ := by
  cases dst with
  | nil => simp only [List.length_nil] at hdst; omega
  | cons d ds =>
    have hds : (entries_bytes p.entries_).length ≤ ds.length := by
      simp only [List.length_cons] at hdst; omega
    obtain ⟨mid, rest, rfl, hmid⟩ := split_at_length ds _ hds
    rw [user_fill_it_eq p d mid rest hdst hmid]
    have hdrop : (d :: (mid ++ rest)).drop (1 + (entries_bytes p.entries_).length) = rest := by
      rw [Nat.add_comm 1, List.drop_succ_cons, ← hmid, List.drop_left]
    rw [hdrop]

/-- C14, as stated, fails: in `short_length_user_property` every length field
respects the capacity 2 of its `static_vector`, `size()` is 7, and the regions
of `const_buffer_sequence()` hold 6 bytes in all; `fill` on a destination of 7
bytes stops at offset 6 and leaves the last byte of the destination unwritten. -/
theorem user_property_short_length_mismatch :
    (∀ e ∈ short_length_user_property.entries_, e.1.len.length ≤ 2 ∧ e.2.len.length ≤ 2) ∧
    short_length_user_property.size = 7 ∧
    short_length_user_property.const_buffer_sequence.flatten.length = 6 ∧
    short_length_user_property.const_buffer_sequence.flatten.length
      ≠ short_length_user_property.size ∧
    short_length_user_property.fill_it (List.replicate 7 0xff)
      = some ⟨[0x26, 0x01, 'a'.toNat, 0x00, 0x01, '1'.toNat, 0xff], 6⟩ := by
  decide

/-- C14, amended: for every `user_property` whose length fields all hold exactly
two bytes, the total length of the regions of `const_buffer_sequence()` is
`size()`, and `fill` on a destination of `size()` bytes writes exactly these
bytes and returns with its iterator at the end of the destination. -/
theorem user_property_size_consistent (p : user_property) (dst : List Nat)
    (htwo : ∀ e ∈ p.entries_, e.1.len.length = 2 ∧ e.2.len.length = 2)
    (hdst : dst.length = p.size) :
    p.const_buffer_sequence.flatten.length = p.size ∧
    p.fill_it dst = some ⟨p.const_buffer_sequence.flatten, p.size⟩ ∧
    p.size = dst.length := by
  have hlen := entries_bytes_length_eq p.entries_ htwo
  have hsize := user_size_eq p
  have hflat := user_const_buffer_sequence_flatten p
  refine ⟨?_, ?_, hdst.symm⟩
  · rw [hflat, List.length_cons]; omega
  · rw [user_fill_it_general p dst hdst (by omega), hflat]
    have hdrop : dst.drop (1 + (entries_bytes p.entries_).length) = [] := by
      apply List.drop_eq_nil_of_le; omega
    rw [hdrop, List.append_nil]
    simp only [Option.some.injEq, OutIt.mk.injEq, true_and]
    omega

theorem user_property_size_consistent_witness :
    example_user_property.const_buffer_sequence.flatten.length = example_user_property.size ∧
    example_user_property.fill_it (List.replicate 15 0xff)
      = some ⟨example_user_property.const_buffer_sequence.flatten,
              example_user_property.size⟩ ∧
    example_user_property.size = (List.replicate 15 0xff).length :=
  user_property_size_consistent example_user_property (List.replicate 15 0xff)
    (by decide) rfl

/-- C15: for every `user_property` object (each length field within the capacity
2 of its `static_vector`), `fill` on a destination of `size()` bytes writes,
from the start of the destination, exactly the concatenation in order of the
regions of `const_buffer_sequence()`, and changes no byte after them. -/
theorem user_property_fill_eq_regions (p : user_property) (dst : List Nat)
    (hcap : ∀ e ∈ p.entries_, e.1.len.length ≤ 2 ∧ e.2.len.length ≤ 2)
    (hdst : dst.length = p.size) :
    ∃ it : OutIt, p.fill_it dst = some it ∧
      it.pos = p.const_buffer_sequence.flatten.length ∧
      it.mem.take it.pos = p.const_buffer_sequence.flatten ∧
      it.mem.drop it.pos = dst.drop it.pos ∧
      p.const_buffer_sequence.flatten
        = 0x26 :: p.entries_.flatMap (fun e => e.1.len ++ e.1.str ++ e.2.len ++ e.2.str) := by
  have hle := entries_bytes_length_le p.entries_ hcap
  have hsize := user_size_eq p
  have hflat := user_const_buffer_sequence_flatten p
  have hbytes : ∀ es : List (len_str × len_str),
      entries_bytes es = es.flatMap (fun e => e.1.len ++ e.1.str ++ e.2.len ++ e.2.str) := by
    intro es
    induction es with
    | nil => rfl
    | cons e es ih =>
      rw [List.flatMap_cons, ← ih]
      simp [entries_bytes, len_str.bytes]
  refine ⟨_, user_fill_it_general p dst hdst (by omega), ?_, ?_, ?_, ?_⟩
  · show 1 + (entries_bytes p.entries_).length = _
    rw [hflat, List.length_cons]; omega
  · have hpos : 1 + (entries_bytes p.entries_).length
        = (p.id_ :: entries_bytes p.entries_).length := by
      rw [List.length_cons]; omega
    show List.take (1 + (entries_bytes p.entries_).length)
        (p.id_ :: (entries_bytes p.entries_
          ++ dst.drop (1 + (entries_bytes p.entries_).length))) = _
    rw [hflat, hpos, ← List.cons_append, List.take_left]
  · have hpos : 1 + (entries_bytes p.entries_).length
        = (p.id_ :: entries_bytes p.entries_).length := by
      rw [List.length_cons]; omega
    show List.drop (1 + (entries_bytes p.entries_).length)
        (p.id_ :: (entries_bytes p.entries_
          ++ dst.drop (1 + (entries_bytes p.entries_).length)))
        = List.drop (1 + (entries_bytes p.entries_).length) dst
    conv_lhs => rw [hpos, ← List.cons_append, List.drop_left]
    rw [← hpos]
  · rw [hflat, hbytes]; rfl

theorem user_property_fill_eq_regions_witness :
    ∃ it : OutIt, short_length_user_property.fill_it (List.replicate 7 0xff) = some it ∧
      it.pos = short_length_user_property.const_buffer_sequence.flatten.length ∧
      it.mem.take it.pos = short_length_user_property.const_buffer_sequence.flatten ∧
      it.mem.drop it.pos = (List.replicate 7 0xff).drop it.pos ∧
      short_length_user_property.const_buffer_sequence.flatten
        = 0x26 :: short_length_user_property.entries_.flatMap
            (fun e => e.1.len ++ e.1.str ++ e.2.len ++ e.2.str) :=
  user_property_fill_eq_regions short_length_user_property (List.replicate 7 0xff)
    (by decide) rfl

/-! ## Capacity, termination and the identifier byte of `variable_length_property` -/

theorem cont_bytes_length_le_self (v : Nat) : (cont_bytes v).length ≤ v := by
  induction v using Nat.strong_induction_on with
  | _ v ih =>
    by_cases h : v > 127
    · rw [cont_bytes_large v h, List.length_cons]
      have := ih (v / 128) (Nat.div_lt_self (by omega) (by norm_num))
      omega
    · rw [cont_bytes_small v (by omega)]; simp

theorem while_loop_fuel_eq (fuel : Nat) :
    ∀ (size : Nat) (buf : List Nat), (cont_bytes size).length < fuel →
      while_loop_fuel fuel size buf = some (variable_length_property.while_loop size buf) := by
  induction fuel with
  | zero => intro size buf h; omega
  | succ fuel ih =>
    intro size buf h
    rw [while_loop_fuel, variable_length_property.while_loop]
    by_cases hs : size > 127
    · rw [cont_bytes_large size hs, List.length_cons] at h
      simp only [hs, if_true, dite_true]
      cases hpush : static_vector.emplace_back 4 buf
          (to_char ((size &&& 0b01111111) ||| 0b10000000)) with
      | error e => rfl
      | ok buf₁ =>
        simp only
        rw [shift_seven]
        exact ih (size / 128) buf₁ (by omega)
    · simp only [hs, if_false, dite_false]

theorem while_loop_exit (size : Nat) :
    ∀ (buf : List Nat) (s : Nat) (b : List Nat),
      variable_length_property.while_loop size buf = .ok (s, b) → s ≤ 127 := by
  induction size using Nat.strong_induction_on with
  | _ size ih =>
    intro buf s b h
    rw [variable_length_property.while_loop] at h
    by_cases hs : size > 127
    · simp only [hs, dite_true] at h
      cases hpush : static_vector.emplace_back 4 buf
          (to_char ((size &&& 0b01111111) ||| 0b10000000)) with
      | error e => rw [hpush] at h; cases h
      | ok buf₁ =>
        rw [hpush] at h
        simp only [shift_seven] at h
        exact ih (size / 128) (Nat.div_lt_self (by omega) (by norm_num)) buf₁ s b h
    · simp only [hs, dite_false, Except.ok.injEq, Prod.mk.injEq] at h
      omega

theorem ctor_ok (id v : Nat) (p : variable_length_property)
    (h : variable_length_property.ctor id v = .ok p) :
    v ≤ 0xfffffff ∧ p = ⟨to_char id, cont_bytes v ++ [last_value v]⟩ := by
  by_cases hv : v ≤ 0xfffffff
  · rw [ctor_eq id v hv] at h
    simp only [Except.ok.injEq] at h
    exact ⟨hv, h.symm⟩
  · rw [ctor_too_large id v (by omega)] at h
    cases h

/-- C16: for every `v ≤ 0x0FFFFFFF` the loop of the constructor is left within 4
evaluations of its condition, that is after at most 3 appends, the final append
brings `buf_` to at most 4 bytes, no `emplace_back` meets a full buffer (no
`bad_alloc` leaves the constructor), and `size()` is one of 2, 3, 4, 5. -/
theorem variable_length_capacity (id v : Nat) (hv : v ≤ 0x0FFFFFFF) :
    ∃ (size₁ : Nat) (buf₁ : List Nat) (p : variable_length_property),
      while_loop_fuel 4 v [] = some (.ok (size₁, buf₁)) ∧
      variable_length_property.while_loop v [] = .ok (size₁, buf₁) ∧
      buf₁.length ≤ 3 ∧
      variable_length_property.ctor id v = .ok p ∧
      p.buf_ = buf₁ ++ [size₁] ∧
      p.buf_.length ≤ 4 ∧
      (∀ buf, variable_length_property.ctor id v ≠ .error ⟨.bad_alloc, buf⟩) ∧
      (p.size = 2 ∨ p.size = 3 ∨ p.size = 4 ∨ p.size = 5) := by
  have hlen : (cont_bytes v).length ≤ 3 :=
    cont_bytes_length_le 3 v (by norm_num at hv ⊢; omega)
  have hloop := while_loop_eq v [] (by simp; omega)
  rw [List.nil_append] at hloop
  refine ⟨last_value v, cont_bytes v, ⟨to_char id, cont_bytes v ++ [last_value v]⟩,
    ?_, hloop, hlen, ctor_eq id v hv, rfl, ?_, ?_, ?_⟩
  · rw [while_loop_fuel_eq 4 v [] (by omega), hloop]
  · simp only [List.length_append, List.length_cons, List.length_nil]; omega
  · intro buf h
    rw [ctor_eq id v hv] at h
    cases h
  · simp only [variable_length_property.size, List.length_append, List.length_cons,
      List.length_nil]
    omega

theorem variable_length_capacity_witness :
    ∃ (size₁ : Nat) (buf₁ : List Nat) (p : variable_length_property),
      while_loop_fuel 4 268435455 [] = some (.ok (size₁, buf₁)) ∧
      variable_length_property.while_loop 268435455 [] = .ok (size₁, buf₁) ∧
      buf₁.length ≤ 3 ∧
      variable_length_property.ctor 0x0b 268435455 = .ok p ∧
      p.buf_ = buf₁ ++ [size₁] ∧
      p.buf_.length ≤ 4 ∧
      (∀ buf, variable_length_property.ctor 0x0b 268435455 ≠ .error ⟨.bad_alloc, buf⟩) ∧
      (p.size = 2 ∨ p.size = 3 ∨ p.size = 4 ∨ p.size = 5) :=
  variable_length_capacity 0x0b 268435455 (by decide)

/-- C17: the encoding is self-delimiting. If the value bytes built for `v₁` are
an initial segment of the value bytes built for `v₂`, then `v₁ = v₂`; and
decoding the value bytes of an accepted `v` followed by any further bytes gives
`v` and leaves exactly those further bytes. -/
theorem variable_length_self_delimiting :
    (∀ (id₁ id₂ v₁ v₂ : Nat) (p₁ p₂ : variable_length_property) (more : List Nat),
      variable_length_property.ctor id₁ v₁ = .ok p₁ →
      variable_length_property.ctor id₂ v₂ = .ok p₂ →
      p₂.buf_ = p₁.buf_ ++ more → v₁ = v₂) ∧
    (∀ (id v : Nat) (rest : List Nat), v ≤ 0x0FFFFFFF →
      ∃ p : variable_length_property,
        variable_length_property.ctor id v = .ok p ∧
        decode (p.buf_ ++ rest) = some (v, rest)) := by
  constructor
  · intro id₁ id₂ v₁ v₂ p₁ p₂ more h₁ h₂ hpre
    obtain ⟨_, rfl⟩ := ctor_ok id₁ v₁ p₁ h₁
    obtain ⟨_, rfl⟩ := ctor_ok id₂ v₂ p₂ h₂
    have d₁ := decode_encoded v₁ more
    have d₂ := decode_encoded v₂ []
    simp only at hpre
    rw [List.append_cons, ← hpre, d₂] at d₁
    simp only [Option.some.injEq, Prod.mk.injEq] at d₁
    exact d₁.1.symm
  · intro id v rest hv
    refine ⟨_, ctor_eq id v hv, ?_⟩
    show decode ((cont_bytes v ++ [last_value v]) ++ rest) = some (v, rest)
    rw [List.append_assoc]
    exact decode_encoded v rest

theorem variable_length_self_delimiting_witness :
    (∃ p : variable_length_property,
      variable_length_property.ctor 0x0b 300 = .ok p ∧
      decode (p.buf_ ++ [0xff, 0x00]) = some (300, [0xff, 0x00])) ∧
    (300 : Nat) = 300 :=
  ⟨variable_length_self_delimiting.2 0x0b 300 [0xff, 0x00] (by decide),
    variable_length_self_delimiting.1 0x0b 0x23 300 300 ⟨0x0b, [0xac, 0x02]⟩
      ⟨0x23, [0xac, 0x02]⟩ []
      (by
        rw [ctor_eq 0x0b 300 (by decide), cont_bytes_large 300 (by decide),
          cont_bytes_small (300 / 128) (by decide), last_value_large 300 (by decide),
          last_value_small (300 / 128) (by decide)]
        rfl)
      (by
        rw [ctor_eq 0x23 300 (by decide), cont_bytes_large 300 (by decide),
          cont_bytes_small (300 / 128) (by decide), last_value_large 300 (by decide),
          last_value_small (300 / 128) (by decide)]
        rfl)
      rfl⟩

/-- C18: the loop of the constructor terminates for every input. Each iteration
replaces `size` by `size >> 7`, which is strictly smaller while `size > 127`;
run with `size + 1` units of fuel the loop is always left, with the result of
the loop defined by well-founded recursion on `size`; and when the loop is left
normally its condition is false. No bound on `size` is assumed. -/
theorem while_loop_terminates :
    (∀ size : Nat, 127 < size → size >>> 7 < size) ∧
    (∀ (size : Nat) (buf : List Nat),
      while_loop_fuel (size + 1) size buf
        = some (variable_length_property.while_loop size buf)) ∧
    (∀ (size : Nat) (buf : List Nat) (s : Nat) (b : List Nat),
      variable_length_property.while_loop size buf = .ok (s, b) → s ≤ 127) := by
  refine ⟨?_, ?_, ?_⟩
  · intro size h
    rw [shift_seven]
    exact Nat.div_lt_self (by omega) (by norm_num)
  · intro size buf
    exact while_loop_fuel_eq (size + 1) size buf
      (Nat.lt_succ_of_le (cont_bytes_length_le_self size))
  · intro size buf s b h
    exact while_loop_exit size buf s b h

theorem while_loop_terminates_witness :
    (1000 : Nat) >>> 7 < 1000 ∧
    while_loop_fuel (1000 + 1) 1000 []
      = some (variable_length_property.while_loop 1000 []) :=
  ⟨while_loop_terminates.1 1000 (by decide), while_loop_terminates.2.1 1000 []⟩

/-- C19: for every `id` and every accepted `v`, the first byte the property
produces, as the first region of `const_buffer_sequence()` and as the first byte
`fill` writes, is `id mod 256`; it is `id` exactly when `id ≤ 255`, and an `id`
shifted by a multiple of 256 gives the same object. -/
theorem variable_length_identifier_byte (id v : Nat) (hv : v ≤ 0x0FFFFFFF) :
    ∃ p : variable_length_property,
      variable_length_property.ctor id v = .ok p ∧
      p.const_buffer_sequence.head? = some [id % 256] ∧
      (∀ dst : List Nat, dst.length = p.size →
        ∃ out, p.fill dst = some out ∧ out.head? = some (id % 256)) ∧
      (p.id_ = id ↔ id ≤ 255) ∧
      (∀ k : Nat,
        variable_length_property.ctor (id + 256 * k) v
          = variable_length_property.ctor id v) := by
  refine ⟨⟨to_char id, cont_bytes v ++ [last_value v]⟩, ctor_eq id v hv, rfl, ?_, ?_, ?_⟩
  · intro dst hdst
    refine ⟨to_char id :: (cont_bytes v ++ [last_value v]), ?_, rfl⟩
    unfold variable_length_property.fill
    rw [if_neg (by simpa using hdst)]
    exact put_then_copy _ _ dst hdst
  · show to_char id = id ↔ id ≤ 255
    unfold to_char
    omega
  · intro k
    rw [ctor_eq id v hv, ctor_eq (id + 256 * k) v hv]
    have : to_char (id + 256 * k) = to_char id := by
      unfold to_char; omega
    rw [this]

theorem variable_length_identifier_byte_witness :
    ∃ p : variable_length_property,
      variable_length_property.ctor 0x10b 300 = .ok p ∧
      p.const_buffer_sequence.head? = some [0x10b % 256] ∧
      (∀ dst : List Nat, dst.length = p.size →
        ∃ out, p.fill dst = some out ∧ out.head? = some (0x10b % 256)) ∧
      (p.id_ = 0x10b ↔ 0x10b ≤ 255) ∧
      (∀ k : Nat,
        variable_length_property.ctor (0x10b + 256 * k) 300
          = variable_length_property.ctor 0x10b 300) :=
  variable_length_identifier_byte 0x10b 300 (by decide)

end mqtt.v5.property
